import Mathlib

/-!
Verification of `data-munging/spd_2020_salary_data.py`.

The script is a one-shot ETL transform: it normalizes the `Name` column of a
salary CSV (regex suffix removal + comma/space splitting), left-joins the rows
against an identity roster on (last, first), partitions the joined rows into
matched/missing by presence of a roster id, and converts currency strings of
the matched rows to numbers.

The embedding below models strings as `List Char` (wrapped in `String` at the
interfaces), the pandas regex substitution `re.sub` as a left-to-right scan
`subst`, Python `str.split(sep)` as `splitCh`, nullable dataframe cells as
`Option`, and `float`/`NaN` conversion failures as `Option` results.
-/

namespace SpdSalary

/-- The suffix token `Jr` from the regex on line 23. -/
def jrTok : List Char := ['J', 'r']

/-- The suffix token `II` from the regex on line 23. -/
def iiTok : List Char := ['I', 'I']

/-- The suffix token `III` from the regex on line 23. -/
def iiiTok : List Char := ['I', 'I', 'I']

/-- The suffix token `IV` from the regex on line 23. -/
def ivTok : List Char := ['I', 'V']

/-- `startsWith t l` holds when the pattern `t` is a prefix of `l`. -/
def startsWith : List Char → List Char → Bool
  | [], _ => true
  | _ :: _, [] => false
  | t :: ts, c :: cs => t == c && startsWith ts cs

/-- The regex alternation `(Jr)|(II)|(III)|(IV)` tested at the head of `l`,
in the source's order: Python's `re` takes the first alternative that
matches, so `II` is tried before `III` (this ordering is the source's). -/
def tokenAt (l : List Char) : Option (List Char) :=
  if startsWith jrTok l then some jrTok
  else if startsWith iiTok l then some iiTok
  else if startsWith iiiTok l then some iiiTok
  else if startsWith ivTok l then some ivTok
  else none

/-- Number of characters consumed by the greedy optional `\.?`. -/
def dotN : List Char → Nat
  | [] => 0
  | c :: _ => if c = '.' then 1 else 0

/-- Length of the match of the regex `" ?((Jr)|(II)|(III)|(IV))\.?"` anchored
at the head of `l`, if any: an optional leading space (no token begins with a
space, so backtracking over `" ?"` never helps), one token, an optional dot. -/
def matchAt : List Char → Option Nat
  | [] => none
  | c :: rest =>
    if c = ' ' then
      match tokenAt rest with
      | some t => some (1 + t.length + dotN (rest.drop t.length))
      | none => none
    else
      match tokenAt (c :: rest) with
      | some t => some (t.length + dotN ((c :: rest).drop t.length))
      | none => none

theorem tokenAt_cases {l : List Char} {t : List Char} (h : tokenAt l = some t) :
    (t = jrTok ∨ t = iiTok ∨ t = iiiTok ∨ t = ivTok) ∧ startsWith t l = true := by
  unfold tokenAt at h
  split_ifs at h with h1 h2 h3 h4 <;> simp_all

theorem tokenAt_length_pos {l : List Char} {t : List Char} (h : tokenAt l = some t) :
    0 < t.length := by
  rcases (tokenAt_cases h).1 with h' | h' | h' | h' <;> subst h' <;> decide

theorem matchAt_pos {l : List Char} {n : Nat} (h : matchAt l = some n) : 1 ≤ n := by
  rcases l with _ | ⟨c, rest⟩
  · exact absurd h (by simp [matchAt])
  · simp only [matchAt] at h
    split_ifs at h with hsp
    · rcases htok : tokenAt rest with _ | t <;> rw [htok] at h <;> simp_all
      omega
    · rcases htok : tokenAt (c :: rest) with _ | t <;> rw [htok] at h <;> simp_all
      have := tokenAt_length_pos htok
      omega

/-- Fuel-driven engine for the substitution scan; the fuel only needs to
dominate the length of the list (`substF_congr`), and `subst` always supplies
enough. -/
def substF : Nat → List Char → List Char
  | _, [] => []
  | 0, l => l
  | n + 1, c :: cs =>
    match matchAt (c :: cs) with
    | some k => substF n ((c :: cs).drop k)
    | none => c :: substF n cs

/-- `re.sub` of the suffix regex with the empty string: scan left to right; at
a match, drop the matched characters and continue after them; otherwise keep
the character and continue.  This is the substitution of line 23. -/
def subst (l : List Char) : List Char := substF l.length l

theorem substF_congr :
    ∀ (n m : Nat) (l : List Char), l.length ≤ n → l.length ≤ m →
      substF n l = substF m l := by
  intro n
  induction n with
  | zero =>
    intro m l hn _
    have : l = [] := List.eq_nil_of_length_eq_zero (Nat.le_zero.mp hn)
    subst this
    cases m <;> rfl
  | succ n ih =>
    intro m l hn hm
    cases l with
    | nil => cases m <;> rfl
    | cons c cs =>
      cases m with
      | zero => simp at hm
      | succ m' =>
        simp only [substF]
        cases hma : matchAt (c :: cs) with
        | some k =>
          have hk := matchAt_pos hma
          have h1 : ((c :: cs).drop k).length ≤ n := by
            simp only [List.length_drop, List.length_cons]
            simp only [List.length_cons] at hn
            omega
          have h2 : ((c :: cs).drop k).length ≤ m' := by
            simp only [List.length_drop, List.length_cons]
            simp only [List.length_cons] at hm
            omega
          exact ih m' _ h1 h2
        | none =>
          rw [ih m' cs (by simp only [List.length_cons] at hn; omega)
            (by simp only [List.length_cons] at hm; omega)]

/-- Python `str.split(sep)` for a one-character separator: keeps empty
fields, always returns at least one element. -/
def splitCh (sep : Char) : List Char → List (List Char)
  | [] => [[]]
  | c :: cs =>
    if c = sep then [] :: splitCh sep cs
    else
      match splitCh sep cs with
      | [] => [[c]]
      | h :: t => (c :: h) :: t

/-- `df.Name.str.split(",").str[0]` applied to the cleaned name:
the derived last name (line 25). -/
def deriveLastL (l : List Char) : List Char :=
  (splitCh ',' (subst l)).headD []

/-- `df.Name.str.split(",").str[1].str.split(" ").str[0]` applied to the
cleaned name: the derived first name (line 28); `none` models the pandas
`NaN` produced by `.str[1]` when the split has fewer than two fields. -/
def deriveFirstL (l : List Char) : Option (List Char) :=
  match (splitCh ',' (subst l)).get? 1 with
  | none => none
  | some r => some ((splitCh ' ' r).headD [])

/-- The cleaned name written back to the `Name` column on line 23. -/
def cleanName (s : String) : String := ⟨subst s.data⟩

/-- String-level derived last name. -/
def deriveLast (s : String) : String := ⟨deriveLastL s.data⟩

/-- String-level derived first name (`none` = pandas `NaN`). -/
def deriveFirst (s : String) : Option String :=
  (deriveFirstL s.data).map (fun u => (⟨u⟩ : String))

/-- An identity roster row as seen inside `match_salary_data` after line 21
`ids.columns = ["id", "last", "first"]`; cells are nullable. -/
structure IdRec where
  id : Option Int
  last : Option String
  first : Option String
deriving DecidableEq, Repr

/-- A raw salary row (columns `Name`, `Base Pay`, `Overtime` of the CSV). -/
structure SalRow where
  Name : String
  basePay : String
  overtime : String
deriving DecidableEq, Repr

/-- A salary row after lines 23-28: cleaned `Name` plus derived key fields. -/
structure NormRow where
  Name : String
  basePay : String
  overtime : String
  first : Option String
  last : String
deriving DecidableEq, Repr

/-- A row of the merged frame after lines 30-34, reduced to the columns
`["Name", "Base Pay", "Overtime", "first", "last", "id"]`; rows of the
missing partition keep exactly this shape. -/
structure Joined where
  Name : String
  basePay : String
  overtime : String
  first : Option String
  last : String
  id : Option Int
deriving DecidableEq, Repr

/-- A matched output record after lines 40-60: columns
`salary, overtime_pay, officer_id, id, year`.  Money is modelled in `ℚ`
(the currency strings of this data denote exact decimals). -/
structure Matched where
  salary : ℚ
  overtime_pay : Option ℚ
  officer_id : Option Int
  id : Option Int
  year : Nat
deriving DecidableEq, Repr

/-- Lines 23-28 applied to one salary row. -/
def normalizeRow (r : SalRow) : NormRow :=
  { Name := cleanName r.Name
    basePay := r.basePay
    overtime := r.overtime
    first := deriveFirst r.Name
    last := deriveLast r.Name }

/-- The join condition of `df.merge(ids, how="left", on=["last", "first"])`:
exact equality on both key columns; pandas lets a null key match a null key,
which `Option` equality reproduces (`none = none`). -/
def keyMatches (r : NormRow) (i : IdRec) : Bool :=
  decide (i.last = some r.last ∧ i.first = r.first)

/-- A joined row: the salary-side columns plus the roster `id` (null when the
left join found no roster row). -/
def mkJoined (r : NormRow) (o : Option Int) : Joined :=
  ⟨r.Name, r.basePay, r.overtime, r.first, r.last, o⟩

/-- The left-join images of a single salary row: one null-id row when no
roster row matches, otherwise one row per matching roster row. -/
def joinOne (ids : List IdRec) (r : NormRow) : List Joined :=
  let ms := ids.filter (keyMatches r)
  if ms.isEmpty then [mkJoined r none]
  else ms.map (fun i => mkJoined r i.id)

/-- `df.merge(ids, how="left", on=["last", "first"])` (line 30): left row
order preserved, fan-out in roster order. -/
def leftMerge (df : List NormRow) (ids : List IdRec) : List Joined :=
  df.flatMap (joinOne ids)

/-- `replace(r"[\$,]", "", regex=True)` on a salary cell (line 51). -/
def stripSal (l : List Char) : List Char :=
  l.filter (fun c => !(c == '$' || c == ','))

/-- `replace(r"[\$, ]", "", regex=True)` on an overtime cell (line 57). -/
def stripOT (l : List Char) : List Char :=
  l.filter (fun c => !(c == '$' || c == ',' || c == ' '))

/-- Value of a digit string. -/
def digitsVal (l : List Char) : Nat :=
  l.foldl (fun n c => 10 * n + (c.toNat - '0'.toNat)) 0

def allDigits (l : List Char) : Bool := l.all Char.isDigit

/-- Python `float(...)` restricted to the unsigned decimal notation this data
uses (`digits`, `digits.digits`, `digits.`, `.digits`); `none` models the
`ValueError` that `astype(float)` raises on anything else. -/
def parseFloat (l : List Char) : Option ℚ :=
  match splitCh '.' l with
  | [a] => if a ≠ [] ∧ allDigits a then some (digitsVal a) else none
  | [a, b] =>
    if (a ≠ [] ∨ b ≠ []) ∧ allDigits a ∧ allDigits b then
      some ((digitsVal a : ℚ) + (digitsVal b : ℚ) / (10 : ℚ) ^ b.length)
    else none
  | _ => none

/-- Salary conversion of lines 50-52: strip `$` and `,`, then `float`. -/
def parseSalary (s : String) : Option ℚ := parseFloat (stripSal s.data)

/-- `.replace("", np.nan)` (line 58): an exact empty string becomes `NaN`. -/
def emptyToNaN (l : List Char) : Option (List Char) :=
  if l = [] then none else some l

/-- `.astype(float)` on a NaN-able cell (line 59): `NaN` stays a missing
value; a string must parse or the conversion raises (outer `none`). -/
def astypeFloatNaN : Option (List Char) → Option (Option ℚ)
  | none => some none
  | some u => (parseFloat u).map some

/-- Overtime conversion of lines 55-60: strip `$`, `,` and space, replace the
empty string by `NaN`, then `astype(float)`. -/
def parseOvertime (s : String) : Option (Option ℚ) :=
  astypeFloatNaN (emptyToNaN (stripOT s.data))

/-- Lines 40-60 applied to one kept joined row: reduce to
`["Base Pay", "Overtime", "id"]`, rename to
`salary, overtime_pay, officer_id`, add a null `id`, set `year = 2020`,
convert both currency columns. -/
def parseMatched (j : Joined) : Option Matched :=
  match parseFloat (stripSal j.basePay.data), parseOvertime j.overtime with
  | some sal, some ot => some ⟨sal, ot, j.id, none, 2020⟩
  | _, _ => none

/-- Row-wise application of a fallible conversion to a whole column, as
`astype(float)` does: any failing cell fails the whole frame. -/
def mapOpt {α β : Type} (f : α → Option β) : List α → Option (List β)
  | [] => some []
  | a :: l =>
    match f a, mapOpt f l with
    | some b, some r => some (b :: r)
    | _, _ => none

/-- The merged frame of lines 23-34 for the given inputs. -/
def mergedOf (ids : List IdRec) (df : List SalRow) : List Joined :=
  leftMerge (df.map normalizeRow) ids

/-- `match_salary_data` (lines 14-61): normalize, left-join, split off the
null-id rows as missing (lines 36-38), refilter on a non-null `officer_id`
(line 48), convert currency (lines 50-60).  The outer `none` models an
exception raised by a failed `astype(float)`. -/
def matchSalaryData (ids : List IdRec) (df : List SalRow) :
    Option (List Matched × List Joined) :=
  let merged := mergedOf ids df
  let missing := merged.filter (fun j => j.id.isNone)
  let kept := merged.filter (fun j => j.id.isSome)
  let kept2 := kept.filter (fun j => j.id.isSome)
  match mapOpt parseMatched kept2 with
  | none => none
  | some m => some (m, missing)

/-- A row of the identity CSV with its columns in the file order
`id`, `first name`, `last name`.  `pd.read_csv(..., usecols=...)` (lines
67-70) returns the selected columns in the order they appear in the file,
not in `usecols` order, so this is also the column order of the frame that
`match_salary_data` receives. -/
structure CsvIdRow where
  id : Option Int
  firstName : Option String
  lastName : Option String
deriving DecidableEq, Repr

/-- Line 21 `ids.columns = ["id", "last", "first"]`: a purely positional
rename of the three columns, applied to a row whose file order is
`id`, `first name`, `last name`. -/
def bindIdentityColumns (r : CsvIdRow) : IdRec :=
  { id := r.id, last := r.firstName, first := r.lastName }

/-- `l` contains one of the four suffix tokens as a substring (a trailing
period is immaterial for containment). -/
def containsTok : List Char → Bool
  | [] => false
  | c :: cs => (tokenAt (c :: cs)).isSome || containsTok cs

/-- Stated from the amended reading of the spec: the longest space-free
prefix of the text strictly between the first comma of the cleaned name and
the following comma (or the end). -/
def specFirstAfterComma (l : List Char) : List Char :=
  ((((subst l).dropWhile (fun c => c ≠ ',')).tail).takeWhile
      (fun c => c ≠ ',')).takeWhile (fun c => c ≠ ' ')

/-- The salary-side columns of a joined row agree with the normalized row
`r` (the joined row is a left-join image of `r`). -/
def originEq (j : Joined) (r : NormRow) : Bool :=
  decide (j.Name = r.Name ∧ j.basePay = r.basePay ∧ j.overtime = r.overtime ∧
    j.first = r.first ∧ j.last = r.last)

/-! ### Lemmas about `startsWith`, `splitCh` and the tokens -/

theorem startsWith_iff {t l : List Char} :
    startsWith t l = true ↔ ∃ r, l = t ++ r := by
  induction t generalizing l with
  | nil => simp [startsWith]
  | cons x ts ih =>
    cases l with
    | nil => simp [startsWith]
    | cons c cs =>
      simp only [startsWith, Bool.and_eq_true, beq_iff_eq, ih, List.cons_append,
        List.cons.injEq]
      constructor
      · rintro ⟨rfl, r, rfl⟩; exact ⟨r, rfl, rfl⟩
      · rintro ⟨r, rfl, rfl⟩; exact ⟨rfl, r, rfl⟩

theorem startsWith_append_self {t r : List Char} : startsWith t (t ++ r) = true :=
  startsWith_iff.mpr ⟨r, rfl⟩

theorem splitCh_cons_sep (sep : Char) (cs : List Char) :
    splitCh sep (sep :: cs) = [] :: splitCh sep cs := by
  simp [splitCh]

theorem splitCh_ne_nil (sep : Char) (l : List Char) : splitCh sep l ≠ [] := by
  cases l with
  | nil => simp [splitCh]
  | cons c cs =>
    by_cases hc : c = sep
    · subst hc; simp [splitCh_cons_sep]
    · simp only [splitCh, if_neg hc]
      rcases h : splitCh sep cs with _ | ⟨a, b⟩ <;> simp

theorem splitCh_cons_ne {sep c : Char} {cs a : List Char} {b : List (List Char)}
    (hc : c ≠ sep) (hs : splitCh sep cs = a :: b) :
    splitCh sep (c :: cs) = (c :: a) :: b := by
  simp [splitCh, if_neg hc, hs]

theorem splitCh_headD (sep : Char) (l : List Char) :
    (splitCh sep l).headD [] = l.takeWhile (fun c => c ≠ sep) := by
  induction l with
  | nil => simp [splitCh]
  | cons c cs ih =>
    by_cases hc : c = sep
    · subst hc; simp [splitCh_cons_sep]
    · rcases hs : splitCh sep cs with _ | ⟨a, b⟩
      · exact absurd hs (splitCh_ne_nil sep cs)
      · rw [splitCh_cons_ne hc hs]
        rw [hs] at ih
        simp only [List.headD_cons] at ih
        simp [List.takeWhile_cons, hc, ih]

theorem splitCh_get1 {sep : Char} {l : List Char} (h : sep ∈ l) :
    (splitCh sep l).get? 1 =
      some (((l.dropWhile (fun c => c ≠ sep)).tail).takeWhile (fun c => c ≠ sep)) := by
  induction l with
  | nil => simp at h
  | cons c cs ih =>
    by_cases hc : c = sep
    · subst hc
      rw [splitCh_cons_sep]
      have hd : List.dropWhile (fun x => decide (x ≠ c)) (c :: cs) = c :: cs := by
        simp [List.dropWhile_cons]
      simp only [hd, List.tail_cons]
      rw [← splitCh_headD]
      rcases hs : splitCh c cs with _ | ⟨a, b⟩
      · exact absurd hs (splitCh_ne_nil c cs)
      · simp
    · have hmem : sep ∈ cs := by
        rcases List.mem_cons.mp h with h' | h'
        · exact absurd h'.symm hc
        · exact h'
      rcases hs : splitCh sep cs with _ | ⟨a, b⟩
      · exact absurd hs (splitCh_ne_nil sep cs)
      · rw [splitCh_cons_ne hc hs]
        rw [hs] at ih
        have hd : List.dropWhile (fun x => decide (x ≠ sep)) (c :: cs) =
            List.dropWhile (fun x => decide (x ≠ sep)) cs := by
          simp [List.dropWhile_cons, hc]
        rw [hd] at *
        simpa using ih hmem

theorem splitCh_of_not_mem {sep : Char} {l : List Char} (h : sep ∉ l) :
    splitCh sep l = [l] := by
  induction l with
  | nil => simp [splitCh]
  | cons c cs ih =>
    simp only [List.mem_cons, not_or] at h
    have := ih h.2
    rw [splitCh_cons_ne (Ne.symm h.1) this]

theorem mem_splitCh_not_mem {sep : Char} {l : List Char} :
    ∀ x ∈ splitCh sep l, sep ∉ x := by
  induction l with
  | nil => simp [splitCh]
  | cons c cs ih =>
    by_cases hc : c = sep
    · subst hc
      rw [splitCh_cons_sep]
      intro x hx
      rcases List.mem_cons.mp hx with hx | hx
      · simp [hx]
      · exact ih x hx
    · rcases hs : splitCh sep cs with _ | ⟨a, b⟩
      · exact absurd hs (splitCh_ne_nil sep cs)
      · rw [splitCh_cons_ne hc hs]
        intro x hx
        rcases List.mem_cons.mp hx with hx | hx
        · subst hx
          have ha := ih a (by rw [hs]; exact List.mem_cons_self a b)
          simp only [List.mem_cons, not_or]
          exact ⟨Ne.symm hc, ha⟩
        · exact ih x (by rw [hs]; exact List.mem_cons_of_mem a hx)

theorem takeWhile_append_all {p : Char → Bool} {a b : List Char}
    (h : ∀ c ∈ a, p c = true) :
    (a ++ b).takeWhile p = a ++ b.takeWhile p := by
  induction a with
  | nil => simp
  | cons c cs ih =>
    have hc := h c (List.mem_cons_self c cs)
    simp only [List.cons_append, List.takeWhile_cons, hc, if_true, List.cons.injEq,
      true_and]
    exact ih fun x hx => h x (List.mem_cons_of_mem c hx)

theorem takeWhile_eq_self_of_all {p : Char → Bool} {a : List Char}
    (h : ∀ c ∈ a, p c = true) : a.takeWhile p = a := by
  have := @takeWhile_append_all p a [] h
  simpa using this

/-! ### Lemmas about `matchAt`, `subst` and `containsTok` -/

theorem subst_nil : subst [] = [] := rfl

theorem subst_cons_some {c : Char} {cs : List Char} {n : Nat}
    (h : matchAt (c :: cs) = some n) :
    subst (c :: cs) = subst ((c :: cs).drop n) := by
  unfold subst
  have hn := matchAt_pos h
  rw [show (c :: cs).length = cs.length + 1 from rfl]
  rw [show substF (cs.length + 1) (c :: cs) =
      match matchAt (c :: cs) with
      | some k => substF cs.length ((c :: cs).drop k)
      | none => c :: substF cs.length cs from rfl]
  rw [h]
  exact substF_congr cs.length ((c :: cs).drop n).length _
    (by simp only [List.length_drop, List.length_cons]; omega) le_rfl

theorem subst_cons_none {c : Char} {cs : List Char}
    (h : matchAt (c :: cs) = none) :
    subst (c :: cs) = c :: subst cs := by
  unfold subst
  rw [show (c :: cs).length = cs.length + 1 from rfl]
  rw [show substF (cs.length + 1) (c :: cs) =
      match matchAt (c :: cs) with
      | some k => substF cs.length ((c :: cs).drop k)
      | none => c :: substF cs.length cs from rfl]
  rw [h]

theorem tokenAt_nil : tokenAt [] = none := by decide

theorem tokenAt_isSome_iff {l : List Char} : (tokenAt l).isSome = true ↔
    startsWith jrTok l = true ∨ startsWith iiTok l = true ∨
      startsWith iiiTok l = true ∨ startsWith ivTok l = true := by
  unfold tokenAt
  split_ifs <;> simp_all

theorem containsTok_cons (c : Char) (cs : List Char) :
    containsTok (c :: cs) = ((tokenAt (c :: cs)).isSome || containsTok cs) := rfl

theorem containsTok_of_tokenAt {l : List Char} (h : (tokenAt l).isSome = true) :
    containsTok l = true := by
  cases l with
  | nil => rw [tokenAt_nil] at h; exact absurd h (by simp)
  | cons c cs => rw [containsTok_cons, h, Bool.true_or]

theorem matchAt_some_cases {c : Char} {cs : List Char} {n : Nat}
    (h : matchAt (c :: cs) = some n) :
    (c = ' ' ∧ ∃ t, tokenAt cs = some t ∧ n = 1 + t.length + dotN (cs.drop t.length)) ∨
    (c ≠ ' ' ∧ ∃ t, tokenAt (c :: cs) = some t ∧
      n = t.length + dotN ((c :: cs).drop t.length)) := by
  simp only [matchAt] at h
  split_ifs at h with hsp
  · left
    refine ⟨hsp, ?_⟩
    rcases htok : tokenAt cs with _ | t <;> rw [htok] at h
    · cases h
    · exact ⟨t, rfl, by injection h with h'; omega⟩
  · right
    refine ⟨hsp, ?_⟩
    rcases htok : tokenAt (c :: cs) with _ | t <;> rw [htok] at h
    · cases h
    · exact ⟨t, rfl, by injection h with h'; omega⟩

theorem matchAt_some_containsTok {l : List Char} {n : Nat}
    (h : matchAt l = some n) : containsTok l = true := by
  cases l with
  | nil => simp [matchAt] at h
  | cons c cs =>
    rcases matchAt_some_cases h with ⟨hsp, t, htok, _⟩ | ⟨hsp, t, htok, _⟩
    · rw [containsTok_cons, containsTok_of_tokenAt (by rw [htok]; rfl), Bool.or_true]
    · rw [containsTok_cons, htok]
      rfl

theorem containsTok_cons_false {c : Char} {cs : List Char}
    (h : containsTok (c :: cs) = false) :
    tokenAt (c :: cs) = none ∧ containsTok cs = false := by
  rw [containsTok_cons] at h
  rcases htok : tokenAt (c :: cs) with _ | t
  · simpa [htok] using h
  · rw [htok] at h
    exact absurd h (by simp)

theorem subst_no_tok {l : List Char} (h : containsTok l = false) : subst l = l := by
  induction l with
  | nil => exact subst_nil
  | cons c cs ih =>
    have hm : matchAt (c :: cs) = none := by
      rcases hmm : matchAt (c :: cs) with _ | n
      · rfl
      · rw [matchAt_some_containsTok hmm] at h
        cases h
    rw [subst_cons_none hm, ih (containsTok_cons_false h).2]

theorem mem_subst_aux :
    ∀ (n : Nat) (l : List Char), l.length ≤ n → ∀ c, c ∈ subst l → c ∈ l
  | _, [], _, c, hc => by rw [subst_nil] at hc; exact hc
  | 0, x :: xs, hl, c, hc => by simp at hl
  | n + 1, x :: xs, hl, c, hc => by
    rcases hm : matchAt (x :: xs) with _ | k
    · rw [subst_cons_none hm] at hc
      rcases List.mem_cons.mp hc with h | h
      · exact h ▸ List.mem_cons_self x xs
      · have hxs : xs.length ≤ n := by
          simp only [List.length_cons] at hl; omega
        exact List.mem_cons_of_mem x (mem_subst_aux n xs hxs c h)
    · rw [subst_cons_some hm] at hc
      have hk := matchAt_pos hm
      have hlen : ((x :: xs).drop k).length ≤ n := by
        simp only [List.length_drop, List.length_cons] at *
        omega
      exact List.mem_of_mem_drop (mem_subst_aux n _ hlen c hc)

theorem mem_subst {l : List Char} {c : Char} (h : c ∈ subst l) : c ∈ l :=
  mem_subst_aux l.length l le_rfl c h

/-- Every character consumed by a match of the suffix regex is a space, a
period, or a character of one of the four tokens. -/
theorem matchAt_take_mem {l : List Char} {n : Nat} (h : matchAt l = some n) :
    ∀ c ∈ l.take n, c ∈ ([' ', '.', 'J', 'r', 'I', 'V'] : List Char) := by
  cases l with
  | nil => simp [matchAt] at h
  | cons x xs =>
    have tok_mem : ∀ t, tokenAt xs = some t ∨ tokenAt (x :: xs) = some t →
        ∀ c ∈ t, c ∈ ([' ', '.', 'J', 'r', 'I', 'V'] : List Char) := by
      intro t ht c hc
      have : t = jrTok ∨ t = iiTok ∨ t = iiiTok ∨ t = ivTok := by
        rcases ht with ht | ht
        · exact (tokenAt_cases ht).1
        · exact (tokenAt_cases ht).1
      rcases this with rfl | rfl | rfl | rfl <;> fin_cases hc <;> decide
    have dot_take : ∀ (r : List Char) (c : Char), c ∈ r.take (dotN r) → c = '.' := by
      intro r c hc
      cases r with
      | nil => simp [dotN] at hc
      | cons y ys =>
        simp only [dotN] at hc
        split_ifs at hc with hy
        · simp only [List.take_succ_cons, List.take_zero] at hc
          rcases List.mem_cons.mp hc with h | h
          · exact h.trans hy
          · simp at h
        · simp at hc
    rcases matchAt_some_cases h with ⟨hsp, t, htok, hn⟩ | ⟨hsp, t, htok, hn⟩
    · subst hsp
      obtain ⟨r, hr⟩ := startsWith_iff.mp (tokenAt_cases htok).2
      subst hr
      intro c hc
      rw [hn] at hc
      have : (1 + t.length + dotN ((t ++ r).drop t.length)) =
          ((' ' :: t).length + dotN (r)) := by
        rw [List.drop_left]
        simp [Nat.add_comm]
      rw [this] at hc
      have hc' : c ∈ (' ' :: t) ++ (r.take (dotN r)) := by
        have := @List.take_append Char (' ' :: t) r (dotN r)
        rw [List.cons_append] at this ⊢
        rw [this] at hc
        exact hc
      rcases List.mem_append.mp hc' with h' | h'
      · rcases List.mem_cons.mp h' with h'' | h''
        · simp [h'']
        · exact tok_mem t (Or.inl htok) c h''
      · have := dot_take r c h'
        simp [this]
    · obtain ⟨r, hr⟩ := startsWith_iff.mp (tokenAt_cases htok).2
      intro c hc
      rw [hn, hr, List.drop_left, List.take_append] at hc
      rcases List.mem_append.mp hc with h' | h'
      · exact tok_mem t (Or.inr htok) c h'
      · have := dot_take r c h'
        simp [this]

theorem comma_mem_subst_aux :
    ∀ (n : Nat) (l : List Char), l.length ≤ n → ',' ∈ l → ',' ∈ subst l
  | _, [], _, hm => by simp at hm
  | 0, x :: xs, hl, hm => by simp at hl
  | n + 1, x :: xs, hl, hm => by
    rcases hma : matchAt (x :: xs) with _ | k
    · rw [subst_cons_none hma]
      rcases List.mem_cons.mp hm with h | h
      · exact h ▸ List.mem_cons_self _ _
      · have hxs : xs.length ≤ n := by
          simp only [List.length_cons] at hl; omega
        exact List.mem_cons_of_mem x (comma_mem_subst_aux n xs hxs h)
    · rw [subst_cons_some hma]
      have hk := matchAt_pos hma
      have hnotin : ',' ∉ (x :: xs).take k := by
        intro hcm
        have := matchAt_take_mem hma ',' hcm
        simp at this
      have hdrop : ',' ∈ (x :: xs).drop k := by
        rcases List.mem_append.mp ((List.take_append_drop k (x :: xs)) ▸ hm) with h | h
        · exact absurd h hnotin
        · exact h
      have hlen : ((x :: xs).drop k).length ≤ n := by
        simp only [List.length_drop, List.length_cons] at *
        omega
      exact comma_mem_subst_aux n _ hlen hdrop

theorem comma_mem_subst {l : List Char} (h : ',' ∈ l) : ',' ∈ subst l :=
  comma_mem_subst_aux l.length l le_rfl h

/-! ### Interaction of the suffix substitution with the comma split -/

theorem tok_cases_ne_comma {t : List Char}
    (h4 : t = jrTok ∨ t = iiTok ∨ t = iiiTok ∨ t = ivTok) :
    ',' ∉ t := by
  rcases h4 with rfl | rfl | rfl | rfl <;> decide

theorem tok_cases_pred_comma {t : List Char}
    (h4 : t = jrTok ∨ t = iiTok ∨ t = iiiTok ∨ t = ivTok) :
    ∀ ch ∈ t, (fun x => decide (x ≠ ',')) ch = true := by
  rcases h4 with rfl | rfl | rfl | rfl <;> decide

theorem tokenAt_isSome_of_startsWith {t l : List Char}
    (h4 : t = jrTok ∨ t = iiTok ∨ t = iiiTok ∨ t = ivTok)
    (hsw : startsWith t l = true) : (tokenAt l).isSome = true := by
  rw [tokenAt_isSome_iff]
  rcases h4 with rfl | rfl | rfl | rfl
  · exact Or.inl hsw
  · exact Or.inr (Or.inl hsw)
  · exact Or.inr (Or.inr (Or.inl hsw))
  · exact Or.inr (Or.inr (Or.inr hsw))

theorem startsWith_takeWhile {t l : List Char} {p : Char → Bool}
    (h : startsWith t l = true) (hp : ∀ c ∈ t, p c = true) :
    startsWith t (l.takeWhile p) = true := by
  obtain ⟨r, rfl⟩ := startsWith_iff.mp h
  rw [takeWhile_append_all hp]
  exact startsWith_append_self

theorem tokenAt_cons_comma (b : List Char) : tokenAt (',' :: b) = none := by
  rcases htk : tokenAt (',' :: b) with _ | t
  · rfl
  · exfalso
    have hsw := (tokenAt_cases htk).2
    rcases (tokenAt_cases htk).1 with rfl | rfl | rfl | rfl <;>
      simp [startsWith, jrTok, iiTok, iiiTok, ivTok] at hsw

/-- If the part of `l` before its first comma is free of suffix tokens, the
substitution leaves that part unchanged. -/
theorem takeWhile_comma_subst {l : List Char}
    (h : containsTok (l.takeWhile (fun c => c ≠ ',')) = false) :
    (subst l).takeWhile (fun c => c ≠ ',') = l.takeWhile (fun c => c ≠ ',') := by
  induction l with
  | nil => rw [subst_nil]
  | cons c cs ih =>
    by_cases hc : c = ','
    · subst hc
      have hm : matchAt (',' :: cs) = none := by
        rcases hmm : matchAt (',' :: cs) with _ | k
        · rfl
        · exfalso
          rcases matchAt_some_cases hmm with ⟨hsp, _⟩ | ⟨_, t, htok, _⟩
          · exact absurd hsp (by decide)
          · rw [tokenAt_cons_comma] at htok
            cases htok
      rw [subst_cons_none hm]
      simp [List.takeWhile_cons]
    · have htw : (c :: cs).takeWhile (fun x => x ≠ ',') =
          c :: cs.takeWhile (fun x => x ≠ ',') := by
        simp [List.takeWhile_cons, hc]
      rw [htw] at h
      obtain ⟨htokn, htail⟩ := containsTok_cons_false h
      have hm : matchAt (c :: cs) = none := by
        rcases hmm : matchAt (c :: cs) with _ | k
        · rfl
        · exfalso
          rcases matchAt_some_cases hmm with ⟨hsp, t, htok, _⟩ | ⟨hsp, t, htok, _⟩
          · subst hsp
            have hsw' := startsWith_takeWhile (tokenAt_cases htok).2
              (tok_cases_pred_comma (tokenAt_cases htok).1)
            have hsome := tokenAt_isSome_of_startsWith (tokenAt_cases htok).1 hsw'
            have := containsTok_of_tokenAt hsome
            rw [htail] at this
            cases this
          · have hsw' := startsWith_takeWhile (tokenAt_cases htok).2
              (tok_cases_pred_comma (tokenAt_cases htok).1)
            rw [htw] at hsw'
            have hsome := tokenAt_isSome_of_startsWith (tokenAt_cases htok).1 hsw'
            rw [htokn] at hsome
            exact absurd hsome (by simp)
      rw [subst_cons_none hm]
      rw [List.takeWhile_cons, List.takeWhile_cons]
      have hcb : (decide (c ≠ ',')) = true := by simp [hc]
      rw [hcb]
      simp only [if_true]
      rw [ih htail]

theorem startsWith_append_comma {t a b : List Char} (hnc : ',' ∉ t)
    (h : startsWith t (a ++ ',' :: b) = true) : startsWith t a = true := by
  induction t generalizing a with
  | nil => simp [startsWith]
  | cons x ts ih =>
    cases a with
    | nil =>
      simp only [List.nil_append, startsWith, Bool.and_eq_true, beq_iff_eq] at h
      simp only [List.mem_cons, not_or] at hnc
      exact absurd h.1.symm hnc.1
    | cons y a' =>
      simp only [List.cons_append, startsWith, Bool.and_eq_true, beq_iff_eq] at h ⊢
      refine ⟨h.1, ih (fun hm => hnc (List.mem_cons_of_mem x hm)) h.2⟩

theorem containsTok_append_comma {a b : List Char}
    (ha : containsTok a = false) (hb : containsTok b = false) :
    containsTok (a ++ ',' :: b) = false := by
  induction a with
  | nil =>
    rw [List.nil_append, containsTok_cons, tokenAt_cons_comma, hb]
    rfl
  | cons c a' ih =>
    obtain ⟨htokn, ha'⟩ := containsTok_cons_false ha
    rw [List.cons_append, containsTok_cons]
    have h1 : tokenAt (c :: (a' ++ ',' :: b)) = none := by
      rcases htk : tokenAt (c :: (a' ++ ',' :: b)) with _ | t
      · rfl
      · exfalso
        have hsw := (tokenAt_cases htk).2
        rw [show c :: (a' ++ ',' :: b) = (c :: a') ++ ',' :: b from rfl] at hsw
        have hsw' := startsWith_append_comma (tok_cases_ne_comma (tokenAt_cases htk).1) hsw
        have hsome := tokenAt_isSome_of_startsWith (tokenAt_cases htk).1 hsw'
        rw [htokn] at hsome
        exact absurd hsome (by simp)
    rw [h1, ih ha']
    rfl

theorem splitCh_append_comma {a b : List Char} (h : ',' ∉ a) :
    splitCh ',' (a ++ ',' :: b) = a :: splitCh ',' b := by
  induction a with
  | nil => simp [splitCh_cons_sep]
  | cons c a' ih =>
    simp only [List.mem_cons, not_or] at h
    rw [List.cons_append, splitCh_cons_ne (Ne.symm h.1) (ih h.2)]

/-! ### Shape facts about the derived name fields -/

theorem deriveLastL_eq_takeWhile (l : List Char) :
    deriveLastL l = (subst l).takeWhile (fun c => c ≠ ',') := by
  rw [deriveLastL, splitCh_headD]

theorem comma_not_mem_deriveLastL (l : List Char) : ',' ∉ deriveLastL l := by
  rw [deriveLastL_eq_takeWhile]
  intro h
  have := List.mem_takeWhile_imp h
  simp at this

theorem deriveFirstL_shape {l f : List Char} (h : deriveFirstL l = some f) :
    ',' ∉ f ∧ ' ' ∉ f := by
  unfold deriveFirstL at h
  rcases hg : (splitCh ',' (subst l)).get? 1 with _ | r <;> rw [hg] at h
  · cases h
  · injection h with h
    subst h
    constructor
    · have hr : r ∈ splitCh ',' (subst l) := List.get?_mem hg
      have hrc := mem_splitCh_not_mem r hr
      rw [splitCh_headD]
      intro hmem
      exact hrc (List.Sublist.mem hmem (List.takeWhile_sublist _))
    · rw [splitCh_headD]
      intro hmem
      have := List.mem_takeWhile_imp hmem
      simp at this

/-! ### Lemmas about the merge, the partition and the currency conversion -/

theorem mapOpt_length {α β : Type} (f : α → Option β) :
    ∀ {l : List α} {r : List β}, mapOpt f l = some r → r.length = l.length := by
  intro l
  induction l with
  | nil =>
    intro r h
    simp only [mapOpt] at h
    cases h
    rfl
  | cons a t ih =>
    intro r h
    simp only [mapOpt] at h
    rcases hfa : f a with _ | b <;> rw [hfa] at h
    · cases h
    · rcases hmt : mapOpt f t with _ | rt <;> rw [hmt] at h
      · cases h
      · cases h
        simp [ih hmt]

theorem mapOpt_mem {α β : Type} (f : α → Option β) :
    ∀ {l : List α} {r : List β}, mapOpt f l = some r →
      ∀ y ∈ r, ∃ x ∈ l, f x = some y := by
  intro l
  induction l with
  | nil =>
    intro r h y hy
    simp only [mapOpt] at h
    cases h
    simp at hy
  | cons a t ih =>
    intro r h y hy
    simp only [mapOpt] at h
    rcases hfa : f a with _ | b <;> rw [hfa] at h
    · cases h
    · rcases hmt : mapOpt f t with _ | rt <;> rw [hmt] at h
      · cases h
      · cases h
        rcases List.mem_cons.mp hy with hy | hy
        · exact ⟨a, List.mem_cons_self a t, hy ▸ hfa⟩
        · obtain ⟨x, hx, hfx⟩ := ih hmt y hy
          exact ⟨x, List.mem_cons_of_mem a hx, hfx⟩

theorem length_filter_partition (l : List Joined) :
    (l.filter (fun j => j.id.isSome)).length +
      (l.filter (fun j => j.id.isNone)).length = l.length := by
  induction l with
  | nil => rfl
  | cons j t ih =>
    rcases hj : j.id with _ | v <;>
      simp only [List.filter_cons, hj, Option.isSome_none, Option.isNone_none,
        Option.isSome_some, Option.isNone_some, List.length_cons] <;>
      simp <;> omega

theorem filter_isSome_idem (l : List Joined) :
    (l.filter (fun j => j.id.isSome)).filter (fun j => j.id.isSome) =
      l.filter (fun j => j.id.isSome) := by
  apply List.filter_eq_self.mpr
  intro a ha
  exact (List.mem_filter.mp ha).2

theorem parseMatched_some {j : Joined} {y : Matched} (h : parseMatched j = some y) :
    y.officer_id = j.id ∧ y.year = 2020 := by
  unfold parseMatched at h
  rcases h1 : parseFloat (stripSal j.basePay.data) with _ | sal <;> rw [h1] at h
  · cases h
  · rcases h2 : parseOvertime j.overtime with _ | ot <;> rw [h2] at h
    · cases h
    · cases h
      exact ⟨rfl, rfl⟩

theorem leftMerge_nil (ids : List IdRec) : leftMerge [] ids = [] := rfl

theorem leftMerge_cons (r : NormRow) (df : List NormRow) (ids : List IdRec) :
    leftMerge (r :: df) ids = joinOne ids r ++ leftMerge df ids := by
  simp [leftMerge]

theorem joinOne_shape {ids : List IdRec} {r : NormRow} {j : Joined}
    (hj : j ∈ joinOne ids r) : ∃ o, j = mkJoined r o := by
  by_cases he : (ids.filter (keyMatches r)).isEmpty
  · simp only [joinOne, he, if_true] at hj
    rcases List.mem_cons.mp hj with hj | hj
    · exact ⟨none, hj⟩
    · simp at hj
  · simp only [joinOne, he, if_false] at hj
    obtain ⟨i, _, hi⟩ := List.mem_map.mp hj
    exact ⟨i.id, hi.symm⟩

theorem originEq_mkJoined (r' r : NormRow) (o : Option Int) :
    originEq (mkJoined r' o) r = decide (r' = r) := by
  unfold originEq mkJoined
  rw [decide_eq_decide]
  cases r'
  cases r
  simp only [NormRow.mk.injEq]

theorem mkJoined_id (r : NormRow) (o : Option Int) : (mkJoined r o).id = o := rfl

theorem joinOne_of_empty {ids : List IdRec} {r : NormRow}
    (he : (ids.filter (keyMatches r)).isEmpty = true) :
    joinOne ids r = [mkJoined r none] := by
  unfold joinOne
  simp [he]

theorem joinOne_of_nonempty {ids : List IdRec} {r : NormRow}
    (he : ¬ (ids.filter (keyMatches r)).isEmpty = true) :
    joinOne ids r = (ids.filter (keyMatches r)).map (fun i => mkJoined r i.id) := by
  unfold joinOne
  simp [he]

theorem countP_joinOne_origin (ids : List IdRec) (r r' : NormRow) :
    (joinOne ids r').countP (fun j => originEq j r) =
      if r' = r then max 1 (ids.filter (keyMatches r')).length else 0 := by
  by_cases he : (ids.filter (keyMatches r')).isEmpty = true
  · have hlen : (ids.filter (keyMatches r')).length = 0 := by
      rw [List.isEmpty_iff] at he
      simp [he]
    rw [joinOne_of_empty he]
    by_cases h : r' = r
    · rw [if_pos h, hlen]
      simp [List.countP_cons, originEq_mkJoined, h]
    · rw [if_neg h]
      simp [List.countP_cons, originEq_mkJoined, h]
  · have hpos : 1 ≤ (ids.filter (keyMatches r')).length := by
      rcases hf : ids.filter (keyMatches r') with _ | ⟨a, b⟩
      · rw [List.isEmpty_iff] at he
        exact absurd hf he
      · simp
    rw [joinOne_of_nonempty he, List.countP_map]
    by_cases h : r' = r
    · rw [if_pos h, Nat.max_eq_right hpos]
      apply List.countP_eq_length.mpr
      intro i _
      simp [Function.comp, originEq_mkJoined, h]
    · rw [if_neg h]
      apply List.countP_eq_zero.mpr
      intro i _
      simp [Function.comp, originEq_mkJoined, h]

theorem countP_joinOne_origin_none (ids : List IdRec) (r r' : NormRow)
    (hk : (ids.filter (keyMatches r)).length = 0) :
    (joinOne ids r').countP (fun j => originEq j r && j.id.isNone) =
      if r' = r then 1 else 0 := by
  by_cases h : r' = r
  · have he : (ids.filter (keyMatches r')).isEmpty = true := by
      rw [List.isEmpty_iff, ← List.length_eq_zero, h]
      exact hk
    rw [joinOne_of_empty he, if_pos h]
    simp [List.countP_cons, originEq_mkJoined, mkJoined_id, h]
  · rw [if_neg h]
    apply List.countP_eq_zero.mpr
    intro j hj
    obtain ⟨o, rfl⟩ := joinOne_shape hj
    simp [originEq_mkJoined, h]

theorem countP_leftMerge_origin (df : List NormRow) (ids : List IdRec) (r : NormRow) :
    (leftMerge df ids).countP (fun j => originEq j r) =
      (df.countP (fun x => decide (x = r))) *
        max 1 (ids.filter (keyMatches r)).length := by
  induction df with
  | nil => simp [leftMerge_nil]
  | cons r' t ih =>
    rw [leftMerge_cons, List.countP_append, ih, List.countP_cons,
      countP_joinOne_origin ids r r']
    by_cases h : r' = r
    · rw [h, if_pos rfl]
      have hd : ∀ x : NormRow, (decide (x = x)) = true := by simp
      rw [hd]
      simp only [if_true]
      ring
    · simp [h]

theorem countP_leftMerge_origin_none (df : List NormRow) (ids : List IdRec)
    (r : NormRow) (hk : (ids.filter (keyMatches r)).length = 0) :
    (leftMerge df ids).countP (fun j => originEq j r && j.id.isNone) =
      df.countP (fun x => decide (x = r)) := by
  induction df with
  | nil => simp [leftMerge_nil]
  | cons r' t ih =>
    rw [leftMerge_cons, List.countP_append, ih, List.countP_cons,
      countP_joinOne_origin_none ids r r' hk]
    by_cases h : r' = r <;> simp [h] <;> omega

theorem parseFloat_eval2 {l a b : List Char}
    (hsplit : splitCh '.' l = [a, b]) (hne : a ≠ [] ∨ b ≠ [])
    (ha : allDigits a = true) (hb : allDigits b = true) :
    parseFloat l =
      some ((digitsVal a : ℚ) + (digitsVal b : ℚ) / (10 : ℚ) ^ b.length) := by
  unfold parseFloat
  rw [hsplit]
  show (if (a ≠ [] ∨ b ≠ []) ∧ allDigits a = true ∧ allDigits b = true then
      some ((digitsVal a : ℚ) + (digitsVal b : ℚ) / (10 : ℚ) ^ b.length)
    else none) = _
  rw [if_pos ⟨hne, ha, hb⟩]

theorem parseFloat_eval1 {l a : List Char}
    (hsplit : splitCh '.' l = [a]) (hne : a ≠ []) (ha : allDigits a = true) :
    parseFloat l = some ((digitsVal a : ℚ)) := by
  unfold parseFloat
  rw [hsplit]
  show (if a ≠ [] ∧ allDigits a = true then some ((digitsVal a : ℚ)) else none) = _
  rw [if_pos ⟨hne, ha⟩]

theorem parseSalary_50000 : parseSalary "$50,000.00" = some 50000 := by
  unfold parseSalary
  have h1 : stripSal ("$50,000.00").data = ("50000.00").data := by decide
  rw [h1, @parseFloat_eval2 (("50000.00").data) (("50000").data) (("00").data)
    (by decide) (by decide) (by decide) (by decide)]
  have h2 : digitsVal ("50000").data = 50000 := by decide
  have h3 : digitsVal ("00").data = 0 := by decide
  have h4 : (("00").data).length = 2 := by decide
  rw [h2, h3, h4]
  norm_num

theorem parseSalary_45000 : parseSalary "$45,000.00" = some 45000 := by
  unfold parseSalary
  have h1 : stripSal ("$45,000.00").data = ("45000.00").data := by decide
  rw [h1, @parseFloat_eval2 (("45000.00").data) (("45000").data) (("00").data)
    (by decide) (by decide) (by decide) (by decide)]
  have h2 : digitsVal ("45000").data = 45000 := by decide
  have h3 : digitsVal ("00").data = 0 := by decide
  have h4 : (("00").data).length = 2 := by decide
  rw [h2, h3, h4]
  norm_num

theorem parseSalary_1234 : parseSalary "$1,234" = some 1234 := by
  unfold parseSalary
  have h1 : stripSal ("$1,234").data = ("1234").data := by decide
  rw [h1, @parseFloat_eval1 (("1234").data) (("1234").data) (by decide)
    (by decide) (by decide)]
  have h2 : digitsVal ("1234").data = 1234 := by decide
  rw [h2]
  norm_num

/-! ### Claim theorems -/

/-- C1 (counterexample): for the roster `[{id: 7, first: "John", last: "Smith"}]`
and the salary row `{Name: "Smith, John A. Jr.", Base Pay: "$50,000.00",
Overtime: ""}`, `match_salary_data` does NOT return the claimed single matched
record with an empty missing partition: the space after the comma makes the
derived first name `""`, so the row fails to match. -/
theorem c1_counterexample :
    matchSalaryData [⟨some 7, some "Smith", some "John"⟩]
      [⟨"Smith, John A. Jr.", "$50,000.00", ""⟩] ≠
    some ([⟨50000, none, some 7, none, 2020⟩], []) := by
  decide

/-- C1 (amended): with the Name written without a space after the comma,
`"Smith,John A. Jr."`, the pipeline produces exactly the claimed matched
record `{salary: 50000, overtime_pay: null, officer_id: 7, id: null,
year: 2020}` and an empty missing partition. -/
theorem c1_amended :
    matchSalaryData [⟨some 7, some "Smith", some "John"⟩]
      [⟨"Smith,John A. Jr.", "$50,000.00", ""⟩] =
    some ([⟨50000, none, some 7, none, 2020⟩], []) := by
  have hm : mergedOf [⟨some 7, some "Smith", some "John"⟩]
      [⟨"Smith,John A. Jr.", "$50,000.00", ""⟩] =
      [⟨"Smith,John A.", "$50,000.00", "", some "John", "Smith", some 7⟩] := by
    decide
  simp only [matchSalaryData]
  rw [hm]
  have hkept : (([(⟨"Smith,John A.", "$50,000.00", "", some "John", "Smith",
        some 7⟩ : Joined)].filter (fun j => j.id.isSome)).filter
      (fun j => j.id.isSome)) =
      [⟨"Smith,John A.", "$50,000.00", "", some "John", "Smith", some 7⟩] := by
    decide
  have hmiss : ([(⟨"Smith,John A.", "$50,000.00", "", some "John", "Smith",
        some 7⟩ : Joined)].filter (fun j => j.id.isNone)) = [] := by
    decide
  rw [hkept, hmiss]
  have hpm : parseMatched ⟨"Smith,John A.", "$50,000.00", "", some "John",
      "Smith", some 7⟩ = some ⟨50000, none, some 7, none, 2020⟩ := by
    unfold parseMatched
    have hsal : parseFloat (stripSal ("$50,000.00").data) = some 50000 :=
      parseSalary_50000
    have hot : parseOvertime "" = some none := by decide
    rw [hsal, hot]
  have hmap : mapOpt parseMatched [(⟨"Smith,John A.", "$50,000.00", "",
      some "John", "Smith", some 7⟩ : Joined)] =
      some [⟨50000, none, some 7, none, 2020⟩] := by
    simp only [mapOpt, hpm]
  rw [hmap]

/-- C2 (counterexample): for an identity CSV row with file column order
`id, first name, last name` holding `(7, "John", "Smith")`, line 21's
positional rename does NOT bind the `first name` value to the internal
`first` field: the record gets `first = "Smith"`. -/
theorem c2_counterexample :
    ¬ ((bindIdentityColumns ⟨some 7, some "John", some "Smith"⟩).first =
          some "John" ∧
       (bindIdentityColumns ⟨some 7, some "John", some "Smith"⟩).last =
          some "Smith") := by
  decide

/-- C2 (amended): for every identity CSV whose columns appear in the file
order `id, first name, last name`, the pipeline binds the `first name`
column's values to the internal `last` field and the `last name` column's
values to the internal `first` field (the positional rename of line 21
presumes a file ordered `id, last name, first name`). -/
theorem c2_amended :
    ∀ r : CsvIdRow, (bindIdentityColumns r).last = r.firstName ∧
      (bindIdentityColumns r).first = r.lastName :=
  fun _ => ⟨rfl, rfl⟩

/-- C3 (counterexample): for the Name `"Smith, John A."` the derived first
name is `""`, not `"John"`: pandas `str.split(" ").str[0]` returns the text
before the first space of `" John A."`, which is empty. -/
theorem c3_counterexample :
    deriveFirst "Smith, John A." = some "" ∧
      deriveFirst "Smith, John A." ≠ some "John" := by
  decide

/-- C3 (amended): for every raw Name containing a comma, the derived
first-name field equals the longest space-free prefix of the text between
the first and second commas of the cleaned name (empty when that text
begins with a space). -/
theorem c3_amended (l : List Char) (h : ',' ∈ l) :
    deriveFirstL l = some (specFirstAfterComma l) := by
  have hm : ',' ∈ subst l := comma_mem_subst h
  unfold deriveFirstL specFirstAfterComma
  rw [splitCh_get1 hm]
  show some ((splitCh ' '
      (((subst l).dropWhile (fun c => c ≠ ',')).tail.takeWhile
        (fun c => c ≠ ','))).headD []) = _
  rw [splitCh_headD]

/-- Witness for C3 (amended) at the concrete Name `"Smith,John A."`. -/
theorem c3_witness :
    ',' ∈ ("Smith,John A.").data ∧
      deriveFirstL ("Smith,John A.").data =
        some (specFirstAfterComma ("Smith,John A.").data) :=
  ⟨by decide, c3_amended _ (by decide)⟩

/-- C4 (code bug): the regex alternation tries `II` before `III`, so the
suffix `" III."` is not removed in its entirety: `re.sub` consumes only
`" II"`, and `"Smith III., John"` cleans to `"SmithI., John"` instead of
`"Smith, John"`, contradicting the source comment
`# Remove Jr, IV, II, III, etc.`. -/
theorem c4_bug_eval : cleanName "Smith III., John" = "SmithI., John" := by
  decide

/-- C5 (counterexample): the derived last-name field can contain a suffix
token: removing `" II"` from `"I III"` concatenates the surrounding
characters into `"II"`, so Name `"I III, John"` derives last name `"II"`. -/
theorem c5_counterexample :
    deriveLast "I III, John" = "II" ∧
      containsTok ((deriveLast "I III, John").data) = true := by
  decide

/-- C5 (amended): for every raw Name whose text before the first comma
contains no suffix-token substring, the derived last-name field contains no
suffix-token substring. -/
theorem c5_amended (l : List Char)
    (h : containsTok (l.takeWhile (fun c => c ≠ ',')) = false) :
    containsTok (deriveLastL l) = false := by
  rw [deriveLastL_eq_takeWhile, takeWhile_comma_subst h]
  exact h

/-- Witness for C5 (amended) at the concrete Name `"Smith, John"`. -/
theorem c5_witness :
    containsTok (("Smith, John").data.takeWhile (fun c => c ≠ ',')) = false ∧
      containsTok (deriveLastL ("Smith, John").data) = false :=
  ⟨by decide, c5_amended _ (by decide)⟩

/-- C6 (counterexample): normalization is not idempotent under the spec's
reassembly `"last, first"`: the pair `("John", "Smith")` is produced from
`"Smith,John"`, but re-running the normalizer on `"Smith, John"` yields
first name `""`, not `"John"`. -/
theorem c6_counterexample :
    deriveFirst "Smith,John" = some "John" ∧
      deriveLast "Smith,John" = "Smith" ∧
      deriveFirst "Smith, John" ≠ some "John" ∧
      deriveFirst "Smith, John" = some "" := by
  decide

/-- C6 (amended): for every (first, last) pair produced by the normalizer
whose fields contain no suffix-token substring, re-running the normalizer on
the reassembled string `last ++ "," ++ first` (no space after the comma)
yields the same pair. -/
theorem c6_amended (name f la : List Char)
    (hf : deriveFirstL name = some f) (hl : deriveLastL name = la)
    (htf : containsTok f = false) (htl : containsTok la = false) :
    deriveFirstL (la ++ ',' :: f) = some f ∧
      deriveLastL (la ++ ',' :: f) = la := by
  have hcla : ',' ∉ la := hl ▸ comma_not_mem_deriveLastL name
  obtain ⟨hcf, hsf⟩ := deriveFirstL_shape hf
  have hsubst : subst (la ++ ',' :: f) = la ++ ',' :: f :=
    subst_no_tok (containsTok_append_comma htl htf)
  constructor
  · unfold deriveFirstL
    rw [hsubst, splitCh_append_comma hcla, splitCh_of_not_mem hcf]
    show some ((splitCh ' ' f).headD []) = some f
    rw [splitCh_headD]
    congr 1
    apply takeWhile_eq_self_of_all
    intro c hc
    simp only [decide_eq_true_eq]
    exact fun he => hsf (he ▸ hc)
  · unfold deriveLastL
    rw [hsubst, splitCh_append_comma hcla]
    rfl

/-- Witness for C6 (amended) at the pair produced from `"Smith,John"`. -/
theorem c6_witness :
    deriveFirstL ("Smith,John").data = some (("John").data) ∧
      deriveLastL ("Smith,John").data = ("Smith").data ∧
      containsTok (("John").data) = false ∧
      containsTok (("Smith").data) = false ∧
      deriveFirstL (("Smith").data ++ ',' :: ("John").data) =
        some (("John").data) ∧
      deriveLastL (("Smith").data ++ ',' :: ("John").data) = ("Smith").data := by
  refine ⟨by decide, by decide, by decide, by decide, ?_, ?_⟩
  · exact (c6_amended ("Smith,John").data _ _ (by decide) (by decide)
      (by decide) (by decide)).1
  · exact (c6_amended ("Smith,John").data _ _ (by decide) (by decide)
      (by decide) (by decide)).2

/-- C7: whenever `match_salary_data` returns, every matched record has a
non-null `officer_id` and `year = 2020`, every missing record has a null
`id`, and the two partitions are exhaustive and disjoint over the joined
rows: missing is exactly the null-id rows, and the lengths add up to the
whole merged frame. -/
theorem c7_partition (ids : List IdRec) (df : List SalRow) (m : List Matched)
    (miss : List Joined) (h : matchSalaryData ids df = some (m, miss)) :
    (∀ x ∈ m, x.officer_id.isSome ∧ x.year = 2020) ∧
    (∀ x ∈ miss, x.id = none) ∧
    miss = (mergedOf ids df).filter (fun j => j.id.isNone) ∧
    m.length + miss.length = (mergedOf ids df).length := by
  simp only [matchSalaryData] at h
  rcases hmp : mapOpt parseMatched
      (((mergedOf ids df).filter (fun j => j.id.isSome)).filter
        (fun j => j.id.isSome)) with _ | m' <;> rw [hmp] at h
  · cases h
  · injection h with h'
    injection h' with h1 h2
    subst h1
    subst h2
    refine ⟨?_, ?_, rfl, ?_⟩
    · intro x hx
      obtain ⟨j, hj, hpj⟩ := mapOpt_mem _ hmp x hx
      obtain ⟨ho, hy⟩ := parseMatched_some hpj
      have hjs : j.id.isSome = true := (List.mem_filter.mp hj).2
      exact ⟨ho ▸ hjs, hy⟩
    · intro x hx
      exact Option.isNone_iff_eq_none.mp (List.mem_filter.mp hx).2
    · rw [mapOpt_length _ hmp, filter_isSome_idem]
      exact length_filter_partition _

/-- Witness for C7 at the empty inputs. -/
theorem c7_witness :
    (∀ x ∈ ([] : List Matched), x.officer_id.isSome ∧ x.year = 2020) ∧
    (∀ x ∈ ([] : List Joined), x.id = none) ∧
    ([] : List Joined) = (mergedOf [] []).filter (fun j => j.id.isNone) ∧
    ([] : List Matched).length + ([] : List Joined).length =
      (mergedOf [] []).length :=
  c7_partition [] [] [] [] (by decide)

/-- C9: in the left join of normalized salary rows against the roster on
(last, first), every salary row appears at least once; when zero roster rows
match it appears exactly once per occurrence with a null id; when `k ≥ 1`
roster rows match it appears exactly `k` times per occurrence. -/
theorem c9_left_join (df : List NormRow) (ids : List IdRec) (r : NormRow)
    (hr : r ∈ df) :
    1 ≤ (leftMerge df ids).countP (fun j => originEq j r) ∧
    ((ids.filter (keyMatches r)).length = 0 →
      (leftMerge df ids).countP (fun j => originEq j r && j.id.isNone) =
        df.countP (fun x => decide (x = r))) ∧
    (1 ≤ (ids.filter (keyMatches r)).length →
      (leftMerge df ids).countP (fun j => originEq j r) =
        df.countP (fun x => decide (x = r)) *
          (ids.filter (keyMatches r)).length) := by
  have hdf : 1 ≤ df.countP (fun x => decide (x = r)) := by
    have hpos : 0 < df.countP (fun x => decide (x = r)) :=
      List.countP_pos_iff.mpr ⟨r, hr, by simp⟩
    omega
  refine ⟨?_, fun hk => countP_leftMerge_origin_none df ids r hk, fun hk => ?_⟩
  · rw [countP_leftMerge_origin]
    have h1 : 1 ≤ max 1 (ids.filter (keyMatches r)).length := le_max_left _ _
    calc 1 = 1 * 1 := rfl
    _ ≤ df.countP (fun x => decide (x = r)) *
        max 1 (ids.filter (keyMatches r)).length := Nat.mul_le_mul hdf h1
  · rw [countP_leftMerge_origin, Nat.max_eq_right hk]

/-- Witness for C9 at a singleton salary frame and an empty roster. -/
theorem c9_witness :
    1 ≤ (leftMerge [(⟨"N", "1", "", none, "N"⟩ : NormRow)] []).countP
        (fun j => originEq j ⟨"N", "1", "", none, "N"⟩) ∧
    (([].filter (keyMatches (⟨"N", "1", "", none, "N"⟩ : NormRow))).length = 0 →
      (leftMerge [(⟨"N", "1", "", none, "N"⟩ : NormRow)] []).countP
          (fun j => originEq j ⟨"N", "1", "", none, "N"⟩ && j.id.isNone) =
        [(⟨"N", "1", "", none, "N"⟩ : NormRow)].countP
          (fun x => decide (x = ⟨"N", "1", "", none, "N"⟩))) ∧
    (1 ≤ ([].filter (keyMatches (⟨"N", "1", "", none, "N"⟩ : NormRow))).length →
      (leftMerge [(⟨"N", "1", "", none, "N"⟩ : NormRow)] []).countP
          (fun j => originEq j ⟨"N", "1", "", none, "N"⟩) =
        [(⟨"N", "1", "", none, "N"⟩ : NormRow)].countP
            (fun x => decide (x = ⟨"N", "1", "", none, "N"⟩)) *
          ([].filter (keyMatches (⟨"N", "1", "", none, "N"⟩ : NormRow))).length) :=
  c9_left_join [⟨"N", "1", "", none, "N"⟩] [] ⟨"N", "1", "", none, "N"⟩
    (by decide)

/-- C8: currency parsing: `"$45,000.00"` parses to `45000`, `"$1,234"` to
`1234` (strip `$` and `,`, then parse); the overtime string is stripped of
`$`, `,` and space, an empty residue becomes null, and any other residue is
parsed as a float. -/
theorem c8_currency :
    parseSalary "$45,000.00" = some 45000 ∧
    parseSalary "$1,234" = some 1234 ∧
    parseOvertime "" = some none ∧
    ∀ s : String, parseOvertime s =
      if stripOT s.data = [] then some none
      else (parseFloat (stripOT s.data)).map some := by
  refine ⟨parseSalary_45000, parseSalary_1234, by decide, ?_⟩
  intro s
  unfold parseOvertime emptyToNaN
  by_cases h : stripOT s.data = [] <;> simp [h, astypeFloatNaN]

/-- C10: a salary row whose Name has no comma does not make
`match_salary_data` raise: its derived first name is null, and, when every
roster row has non-null first and last fields, the row lands in the missing
partition with a null id. -/
theorem c10_no_comma (ids : List IdRec) (name bp ot : String)
    (hids : ∀ i ∈ ids, i.first.isSome ∧ i.last.isSome)
    (hc : ',' ∉ name.data) :
    ∃ miss, matchSalaryData ids [⟨name, bp, ot⟩] = some ([], miss) ∧
      miss.length = 1 ∧ ∀ x ∈ miss, x.id = none ∧ x.first = none := by
  have hsub : ',' ∉ subst name.data := fun hmem => hc (mem_subst hmem)
  have hfirst : deriveFirstL name.data = none := by
    unfold deriveFirstL
    rw [splitCh_of_not_mem hsub]
    rfl
  have hrfirst : (normalizeRow ⟨name, bp, ot⟩).first = none := by
    simp [normalizeRow, deriveFirst, hfirst]
  have hfilter : ids.filter (keyMatches (normalizeRow ⟨name, bp, ot⟩)) = [] := by
    apply List.filter_eq_nil_iff.mpr
    intro i hi
    obtain ⟨hif, _⟩ := hids i hi
    unfold keyMatches
    simp only [decide_eq_true_eq, not_and]
    intro _ h2
    rw [hrfirst] at h2
    rw [h2] at hif
    simp at hif
  have hjoin : joinOne ids (normalizeRow ⟨name, bp, ot⟩) =
      [mkJoined (normalizeRow ⟨name, bp, ot⟩) none] :=
    joinOne_of_empty (by rw [List.isEmpty_iff]; exact hfilter)
  have hmerged : mergedOf ids [⟨name, bp, ot⟩] =
      [mkJoined (normalizeRow ⟨name, bp, ot⟩) none] := by
    unfold mergedOf
    rw [List.map_cons, List.map_nil, leftMerge_cons, leftMerge_nil, hjoin,
      List.append_nil]
  refine ⟨[mkJoined (normalizeRow ⟨name, bp, ot⟩) none], ?_, rfl, ?_⟩
  · simp only [matchSalaryData]
    rw [hmerged]
    have hkept : (([mkJoined (normalizeRow ⟨name, bp, ot⟩) none].filter
        (fun j => j.id.isSome)).filter (fun j => j.id.isSome)) = [] := by
      simp [mkJoined_id]
    have hmiss : [mkJoined (normalizeRow ⟨name, bp, ot⟩) none].filter
        (fun j => j.id.isNone) =
        [mkJoined (normalizeRow ⟨name, bp, ot⟩) none] := by
      simp [mkJoined_id]
    rw [hkept, hmiss]
    rfl
  · intro x hx
    rcases List.mem_cons.mp hx with hx | hx
    · subst hx
      exact ⟨rfl, hrfirst⟩
    · simp at hx

/-- Witness for C10 at a concrete comma-free Name and a singleton roster. -/
theorem c10_witness :
    ∃ miss, matchSalaryData [⟨some 3, some "Smith", some "John"⟩]
        [⟨"Mononym", "$1", ""⟩] = some ([], miss) ∧
      miss.length = 1 ∧ ∀ x ∈ miss, x.id = none ∧ x.first = none :=
  c10_no_comma [⟨some 3, some "Smith", some "John"⟩] "Mononym" "$1" ""
    (by decide) (by decide)

end SpdSalary
